import Mathlib

/-!
Clustering engine of `glib/mine/clustering.h`.

A shallow embedding of the distance strategies (`TDistance`), the
partitional-clustering front end (`TClustering.TAbsKMeans.Apply`) and the
agglomerative driver (`TClustering.TAggClust.MakeDendro`), followed by the
properties established about them.

Numbers are taken from an arbitrary linearly ordered field `α` (exact
arithmetic, every value finite); the square root is a parameter `sqrt`, so that
every definition stays executable on `ℚ` and can be read on `ℝ` with
`Real.sqrt`.
-/

set_option autoImplicit false
set_option linter.unusedSectionVars false

/-! ## Containers -/

/-- Dense matrix `TVVec`: `XDim` rows, `YDim` columns, `At r c` the entry of
row `r` and column `c`.  Feature matrices hold one instance per column. -/
structure TVVec (α : Type) where
  XDim : Nat
  YDim : Nat
  At : Nat → Nat → α

namespace TVVec

variable {α : Type}

/-- Number of rows, `TVVec::GetRows`. -/
def GetRows (M : TVVec α) : Nat := M.XDim

/-- Number of columns, `TVVec::GetCols`. -/
def GetCols (M : TVVec α) : Nat := M.YDim

end TVVec

/-! ## Linear-algebra primitives used by the distance code -/

namespace TLinAlg

variable {α : Type} [LinearOrderedField α]

/-- Modelled from the spec: `TLinAlg::Norm2` is not part of the sources at hand;
it is the squared norm `|x|²` of a dense vector. -/
def Norm2 (x : List α) : α := (x.map fun a => a * a).sum

/-- Modelled from the spec: squared norm of column `c` of a matrix (one entry of
`TLinAlg::GetColNorm2V`, which is not part of the sources at hand). -/
def ColNorm2 (X : TVVec α) (c : Nat) : α :=
  ((List.range X.XDim).map fun k => X.At k c * X.At k c).sum

/-- Modelled from the spec: `TLinAlg::GetColNorm2V`, the vector of the
column-squared-norms, one entry per column. -/
def GetColNorm2V (X : TVVec α) : List α := (List.range X.YDim).map (ColNorm2 X)

/-- Modelled from the spec: cross term `x · c` of a dense vector with column `c`
of a matrix. -/
def ColDot (X : TVVec α) (x : List α) (c : Nat) : α :=
  ((List.range X.XDim).map fun k => X.At k c * x.getD k 0).sum

/-- Modelled from the spec: `TLinAlg::MultiplyT(X, x, xC)`, the cross terms
`Xᵀ x`, one entry per column of `X`. -/
def MultiplyTV (X : TVVec α) (x : List α) : List α :=
  (List.range X.YDim).map (ColDot X x)

/-- Modelled from the spec: `TLinAlg::MultiplyT(X, Y, D)`, the matrix `Xᵀ Y` of
the cross terms between the columns of `X` and the columns of `Y`. -/
def MultiplyT (X Y : TVVec α) : TVVec α where
  XDim := X.YDim
  YDim := Y.YDim
  At := fun i j => ((List.range X.XDim).map fun k => X.At k i * Y.At k j).sum

end TLinAlg

/-! ## Distance strategies -/

namespace TDistance

variable {α : Type} [LinearOrderedField α]

/-- Sparse vector `TSpV = TIntFltKdV`. -/
abbrev TSpV (α : Type) := List (Int × α)

/-- Sparse matrix `TSpVV = TVec<TSpV>`. -/
abbrev TSpVV (α : Type) := List (TSpV α)

namespace TEuclDist

/-- The tolerance `1e-8` of the assertion in `GetDistV`. -/
def NumErr : α := 1 / 100000000

/-- Body of the loop of `TEuclDist::GetDistV` (lines 99-102) on the accumulated
value `v = DistV[i] + (NormX2 - 2*xC[i])`: the assertion `v > -1e-8`, the clamp
of a negative value to zero and the square root. -/
def GetDistV.entry (sqrt : α → α) (v : α) : Except String α :=
  if v > -NumErr then
    .ok (sqrt (if v < 0 then 0 else v))
  else
    .error "Distance lower than numerical error!"

/-- Accumulated value of entry `i` (line 99): `DistV[i] += NormX2 - 2*xC[i]`. -/
def GetDistV.acc (NormX2 : α) (DistV xC : List α) (i : Nat) : α :=
  DistV.getD i 0 + (NormX2 - 2 * xC.getD i 0)

/-- Source `TEuclDist::GetDistV` (lines 85-104) for a dense centroid matrix and a dense
point.  The loop walks the entries of `DistV` in order and stops at the first
entry whose assertion fails. -/
def GetDistV (sqrt : α → α) (CentroidVV : TVVec α) (FtrV : List α) :
    Except String (List α) :=
  let NormX2 := TLinAlg.Norm2 FtrV
  let DistV := TLinAlg.GetColNorm2V CentroidVV
  let xC := TLinAlg.MultiplyTV CentroidVV FtrV
  (List.range DistV.length).mapM fun i =>
    GetDistV.entry sqrt (GetDistV.acc NormX2 DistV xC i)

/-- Modelled from the spec: the five-argument `TEuclDist::GetDist2VV` is only
declared in the sources at hand; it combines the column-squared-norms with the
cross term of one matrix multiply, `D[i][j] = |x_i|² − 2·x_i·y_j + |y_j|²`. -/
def GetDist2VVN (X Y : TVVec α) (NormX2 NormY2 : List α) : TVVec α where
  XDim := X.YDim
  YDim := Y.YDim
  At := fun i j => NormX2.getD i 0 - 2 * (TLinAlg.MultiplyT X Y).At i j + NormY2.getD j 0

/-- Source `TEuclDist::GetDist2VV` (lines 117-123): computes both norm vectors and
calls the variant with precomputed norms. -/
def GetDist2VV (X Y : TVVec α) : TVVec α :=
  let NormX2 := TLinAlg.GetColNorm2V X
  let NormY2 := TLinAlg.GetColNorm2V Y
  GetDist2VVN X Y NormX2 NormY2

end TEuclDist

namespace TCosDist

/-- Source `TCosDist::GetDistV`, dense (line 140): empty body, the output argument
`DistV` is handed back as it came in. -/
def GetDistV (_CentroidVV : TVVec α) (_FtrV : List α) (DistV : List α) :
    Except String (List α) := .ok DistV

/-- Source `TCosDist::GetDistV`, sparse (line 141): empty body. -/
def GetDistVSp (_CentroidVV : TSpVV α) (_FtrV : TSpV α) (DistV : List α) :
    Except String (List α) := .ok DistV

/-- Source `TCosDist::GetDistVV`, dense (line 145): empty body. -/
def GetDistVV (_X _Y : TVVec α) (D : TVVec α) : Except String (TVVec α) := .ok D

/-- Source `TCosDist::GetDistVV`, sparse (line 146): empty body. -/
def GetDistVVSp (_X _Y : TSpVV α) (D : TVVec α) : Except String (TVVec α) := .ok D

/-- Source `TCosDist::GetDist2VV`, dense (line 150): empty body. -/
def GetDist2VV (_X _Y : TVVec α) (D : TVVec α) : Except String (TVVec α) := .ok D

/-- Source `TCosDist::GetDist2VV`, sparse (line 151): empty body. -/
def GetDist2VVSp (_X _Y : TSpVV α) (D : TVVec α) : Except String (TVVec α) := .ok D

end TCosDist

end TDistance

/-! ## Partitional clustering front end -/

namespace TClustering

namespace TAbsKMeans

variable {α σ ν : Type}

/-- Source `TAbsKMeans::GetFtrVN` (lines 228-230). -/
def GetFtrVN (FtrVV : TVVec α) : Int := FtrVV.GetCols

/-- Source `TAbsKMeans::GetFtrVDim` (lines 231-234). -/
def GetFtrVDim (FtrVV : TVVec α) : Int := FtrVV.GetRows

/-- Source `TAbsKMeans::GetFtrVV` (lines 235-237). -/
def GetFtrVV (FtrVV : TVVec α) : TVVec α := FtrVV

/-- Type of the algorithm-specific (pure virtual) `Apply(FtrVV, NInst, Dim,
MaxIter, Notify)`: it runs on the engine state `σ` and either throws or
returns, leaving a state behind in both cases. -/
abbrev ApplyImpl (α σ ν : Type) :=
  TVVec α → Int → Int → Int → ν → σ → Except String Unit × σ

/-- Public `TAbsKMeans::Apply(FtrVV, MaxIter, Notify)` (lines 194-199): the
`EAssertR` on the dimension throws before anything else is touched. -/
def Apply (impl : ApplyImpl α σ ν) (FtrVV : TVVec α) (MaxIter : Int) (Notify : ν)
    (self : σ) : Except String Unit × σ :=
  let Dim := GetFtrVDim FtrVV
  if Dim > 0 then
    impl (GetFtrVV FtrVV) (GetFtrVN FtrVV) Dim MaxIter Notify self
  else
    (.error "The input matrix doesn't have any features!", self)

end TAbsKMeans

/-! ## Linkage strategies -/

variable {α : Type} [LinearOrderedField α]

/-- Modelled from the spec: the `JoinClusts` functions are only declared in the
sources at hand.  A linkage rewrites row and column `i` of the distance matrix:
for every active `k` (item count not zero) the entries `D[i][k]` and `D[k][i]`
become `f D[i][k] D[j][k]`; every other entry, row and column `j` included, is
left as it is. -/
def JoinWith (f : α → α → α) (DistMat : TVVec α) (ItemCountV : List Nat)
    (i j : Nat) : TVVec α :=
  { DistMat with
    At := fun r c =>
      if r = i ∧ ItemCountV.getD c 0 ≠ 0 then
        f (DistMat.At i c) (DistMat.At j c)
      else if c = i ∧ ItemCountV.getD r 0 ≠ 0 then
        f (DistMat.At i r) (DistMat.At j r)
      else DistMat.At r c }

/-- Modelled from the spec: single link, `D[i][k] ← min(D[i][k], D[j][k])`. -/
def TSingleLink.JoinClusts (DistMat : TVVec α) (ItemCountV : List Nat)
    (i j : Nat) : TVVec α :=
  JoinWith min DistMat ItemCountV i j

/-- Modelled from the spec: complete link, `D[i][k] ← max(D[i][k], D[j][k])`. -/
def TCompleteLink.JoinClusts (DistMat : TVVec α) (ItemCountV : List Nat)
    (i j : Nat) : TVVec α :=
  JoinWith max DistMat ItemCountV i j

/-- Modelled from the spec: average link,
`D[i][k] ← (countI·D[i][k] + countJ·D[j][k]) / (countI + countJ)`, with the
counts as they are before the driver updates them. -/
def TAvgLink.JoinClusts (DistMat : TVVec α) (ItemCountV : List Nat)
    (i j : Nat) : TVVec α :=
  JoinWith
    (fun a b =>
      ((ItemCountV.getD i 0 : α) * a + (ItemCountV.getD j 0 : α) * b) /
        ((ItemCountV.getD i 0 : α) + (ItemCountV.getD j 0 : α)))
    DistMat ItemCountV i j

/-! ## Agglomerative driver -/

/-- Merge record `TIntIntFltTr`: left slot, right slot, merge distance. -/
abbrev TIntIntFltTr (α : Type) := Int × Int × α

/-- Type of a linkage `TLink::JoinClusts(DistMat, ItemCountV, i, j)`. -/
abbrev TLink (α : Type) := TVVec α → List Nat → Nat → Nat → TVVec α

namespace TAggClust

/-- Variables of the minimum search (lines 328-330); `MnDist = none` stands for
`TFlt::PInf`. -/
structure MnSt (α : Type) where
  MnI : Int
  MnJ : Int
  MnDist : Option α

/-- The comparison `v < MnDist` of line 339. -/
def ltMn (v : α) : Option α → Bool
  | none => true
  | some m => decide (v < m)

/-- Body of the inner loop (lines 337-343) at the pair `(i, j)`. -/
def scanBody (ClustDistVV : TVVec α) (ItemCountV : List Nat) (i : Nat)
    (st : MnSt α) (j : Nat) : MnSt α :=
  if i = j ∨ ItemCountV.getD j 0 = 0 then st
  else if ltMn (ClustDistVV.At i j) st.MnDist then
    { MnI := i, MnJ := j, MnDist := some (ClustDistVV.At i j) }
  else st

/-- Inner loop (lines 336-344): `j` runs from `i+1` to `NInst-1`. -/
def scanRow (ClustDistVV : TVVec α) (ItemCountV : List Nat) (NInst i : Nat)
    (st : MnSt α) : MnSt α :=
  (List.range' (i + 1) (NInst - (i + 1))).foldl
    (scanBody ClustDistVV ItemCountV i) st

/-- Body of the outer loop (lines 334-344) at row `i`. -/
def scanOuter (ClustDistVV : TVVec α) (ItemCountV : List Nat) (NInst : Nat)
    (st : MnSt α) (i : Nat) : MnSt α :=
  if ItemCountV.getD i 0 = 0 then st
  else scanRow ClustDistVV ItemCountV NInst i st

/-- Minimum search (lines 328-345): `i` runs from `0` to `NInst-1`, starting
from `MnI = MnJ = -1` and `MnDist = +∞`. -/
def findMin (ClustDistVV : TVVec α) (ItemCountV : List Nat) (NInst : Nat) :
    MnSt α :=
  (List.range NInst).foldl (scanOuter ClustDistVV ItemCountV NInst)
    { MnI := -1, MnJ := -1, MnDist := none }

/-- State of the merge loop: the distance matrix, the item counts and the merge
records written so far.  The counts of `TIntV ItemCountV` start at one and are
only ever added up, their sum staying at `NInst`; they are held as naturals. -/
structure DendroSt (α : Type) where
  ClustDistVV : TVVec α
  ItemCountV : List Nat
  MergeV : List (TIntIntFltTr α)

/-- One iteration of the merge loop (lines 327-356).  When the search finds no
pair, `MnI = MnJ = -1` would be used as indices; the run has no result
(`none`). -/
def mergeStep (JoinClusts : TLink α) (sqrt : α → α) (NInst : Nat)
    (s : DendroSt α) : Option (DendroSt α) :=
  let m := findMin s.ClustDistVV s.ItemCountV NInst
  match m.MnDist with
  | none => none
  | some MnDist =>
    let Dist := sqrt (if MnDist < 0 then 0 else MnDist)
    let MergeV := s.MergeV ++ [(m.MnI, m.MnJ, Dist)]
    let MnI := m.MnI.toNat
    let MnJ := m.MnJ.toNat
    let ClustDistVV := JoinClusts s.ClustDistVV s.ItemCountV MnI MnJ
    let ItemCountV :=
      s.ItemCountV.set MnI (s.ItemCountV.getD MnI 0 + s.ItemCountV.getD MnJ 0)
    let ItemCountV := ItemCountV.set MnJ 0
    some { ClustDistVV := ClustDistVV, ItemCountV := ItemCountV, MergeV := MergeV }

/-- The first `k` iterations of the merge loop, from state `s`. -/
def mergeLoop (JoinClusts : TLink α) (sqrt : α → α) (NInst : Nat) :
    Nat → DendroSt α → Option (DendroSt α)
  | 0, s => some s
  | k + 1, s => (mergeStep JoinClusts sqrt NInst s).bind (mergeLoop JoinClusts sqrt NInst k)

/-- State on entry of the merge loop (lines 319-324): the squared distances of
the columns of `X`, item counts all one (`TLAUtil::Ones`), `MergeV` as passed
in. -/
def initSt (GetDist2VV : TVVec α → TVVec α → TVVec α) (X : TVVec α)
    (MergeV : List (TIntIntFltTr α)) : DendroSt α where
  ClustDistVV := GetDist2VV X X
  ItemCountV := List.replicate X.GetCols 1
  MergeV := MergeV

/-- Source `TAggClust<TDist, TLink>::MakeDendro` (lines 318-358): `NInst - 1`
iterations of the merge loop; the result is the final `MergeV`.  The
notifications do not take part. -/
def MakeDendro (GetDist2VV : TVVec α → TVVec α → TVVec α) (JoinClusts : TLink α)
    (sqrt : α → α) (X : TVVec α) (MergeV : List (TIntIntFltTr α)) :
    Option (List (TIntIntFltTr α)) :=
  let NInst := X.GetCols
  (mergeLoop JoinClusts sqrt NInst (NInst - 1) (initSt GetDist2VV X MergeV)).map
    fun s => s.MergeV

/-! ### Vocabulary of the properties of the driver -/

/-- Slots `a < b` below `NInst` that are both active (item count not zero): the
pairs the minimum search looks at. -/
def ActivePair (ItemCountV : List Nat) (NInst a b : Nat) : Prop :=
  a < b ∧ b < NInst ∧ ItemCountV.getD a 0 ≠ 0 ∧ ItemCountV.getD b 0 ≠ 0

/-- Pair `(a, b)` comes before pair `(i, j)` in the order of the search. -/
def LexLt (a b i j : Nat) : Prop := a < i ∨ (a = i ∧ b < j)

/-- Pairs the search has been through when the outer loop is at row `n` and the
inner loop is about to look at column `m`. -/
def Visited (n m a b : Nat) : Prop := a < n ∨ (a = n ∧ b < m)

/-- Pair `(i, j)` is the first active pair, in the order of the search, whose
matrix value is minimal among the active pairs. -/
def FirstMin (D : TVVec α) (ItemCountV : List Nat) (NInst i j : Nat) : Prop :=
  ActivePair ItemCountV NInst i j ∧
    ∀ a b, ActivePair ItemCountV NInst a b →
      D.At i j ≤ D.At a b ∧ (LexLt a b i j → D.At i j < D.At a b)

/-- Loop invariant of the minimum search: the variables are untouched and no
active pair has been visited, or they hold the first minimal pair among the
visited active pairs. -/
def ScanInv (D : TVVec α) (ItemCountV : List Nat) (NInst n m : Nat)
    (st : MnSt α) : Prop :=
  (st = { MnI := -1, MnJ := -1, MnDist := none } ∧
      ∀ a b, ActivePair ItemCountV NInst a b → ¬ Visited n m a b) ∨
    ∃ i j : Nat, st = { MnI := i, MnJ := j, MnDist := some (D.At i j) } ∧
      ActivePair ItemCountV NInst i j ∧ Visited n m i j ∧
      ∀ a b, ActivePair ItemCountV NInst a b → Visited n m a b →
        D.At i j ≤ D.At a b ∧ (LexLt a b i j → D.At i j < D.At a b)

/-- Item counts after a merge of slot `j` into slot `i` (lines 355-356). -/
def joinCounts (ItemCountV : List Nat) (i j : Nat) : List Nat :=
  (ItemCountV.set i (ItemCountV.getD i 0 + ItemCountV.getD j 0)).set j 0

/-- Number of active slots. -/
def activeCount (ItemCountV : List Nat) : Nat :=
  (ItemCountV.filter fun c => decide (c ≠ 0)).length

/-- Invariant of the merge loop after `k` iterations, `L` being the records
written so far on top of the `MergeV` passed in: the item counts still cover
the `NInst` points, `k` slots have been deactivated, and the deactivated slots
are exactly the right elements of the records. -/
structure LoopInv (NInst : Nat) (MergeV0 : List (TIntIntFltTr α)) (k : Nat)
    (s : DendroSt α) (L : List (TIntIntFltTr α)) : Prop where
  len : s.ItemCountV.length = NInst
  sum : s.ItemCountV.sum = NInst
  act : activeCount s.ItemCountV + k = NInst
  merge : s.MergeV = MergeV0 ++ L
  llen : L.length = k
  range : ∀ r ∈ L, ∃ i j : Nat, r.1 = (i : Int) ∧ r.2.1 = (j : Int) ∧ i < j ∧ j < NInst
  right : ∀ r ∈ L, s.ItemCountV.getD r.2.1.toNat 0 = 0
  cover : ∀ idx, idx < NInst → s.ItemCountV.getD idx 0 = 0 →
    ∃ r ∈ L, r.2.1 = (idx : Int)
  last : ∀ r, L.getLast? = some r → s.ItemCountV.getD r.1.toNat 0 ≠ 0
  later : L.Pairwise fun r r' => r.2.1 ≠ r'.1 ∧ r.2.1 ≠ r'.2.1

/-- State after a merge of the pair `(i, j)` in state `s`. -/
def mergedSt (JoinClusts : TLink α) (sqrt : α → α) (s : DendroSt α) (i j : Nat) :
    DendroSt α where
  ClustDistVV := JoinClusts s.ClustDistVV s.ItemCountV i j
  ItemCountV := joinCounts s.ItemCountV i j
  MergeV := s.MergeV ++ [((i : Int), (j : Int), sqrt (max 0 (s.ClustDistVV.At i j)))]

end TAggClust

/-- Source `TAlAggClust` (line 361): `TAggClust<TEuclDist, TAvgLink>`. -/
def TAlAggClust.MakeDendro (sqrt : α → α) (X : TVVec α)
    (MergeV : List (TIntIntFltTr α)) : Option (List (TIntIntFltTr α)) :=
  TAggClust.MakeDendro TDistance.TEuclDist.GetDist2VV TAvgLink.JoinClusts sqrt X MergeV

/-- Source `TClAggClust` (line 362): `TAggClust<TEuclDist, TCompleteLink>`. -/
def TClAggClust.MakeDendro (sqrt : α → α) (X : TVVec α)
    (MergeV : List (TIntIntFltTr α)) : Option (List (TIntIntFltTr α)) :=
  TAggClust.MakeDendro TDistance.TEuclDist.GetDist2VV TCompleteLink.JoinClusts sqrt X MergeV

/-- Source `TSlAggClust` (line 363): `TAggClust<TEuclDist, TCompleteLink>`, the same
instantiation as `TClAggClust`. -/
def TSlAggClust.MakeDendro (sqrt : α → α) (X : TVVec α)
    (MergeV : List (TIntIntFltTr α)) : Option (List (TIntIntFltTr α)) :=
  TAggClust.MakeDendro TDistance.TEuclDist.GetDist2VV TCompleteLink.JoinClusts sqrt X MergeV

/-- The 1x4 matrix of the four points `0, 1, 9, 10`. -/
def fourPoints : TVVec α where
  XDim := 1
  YDim := 4
  At := fun _ c => [0, 1, 9, 10].getD c 0

end TClustering

/-! ## The minimum search -/

namespace TClustering

variable {α : Type} [LinearOrderedField α]

namespace TAggClust

theorem scanInv_congr {D : TVVec α} {cnt : List Nat} {N n m n' m' : Nat} {st : MnSt α}
    (h : ∀ a b, ActivePair cnt N a b → (Visited n m a b ↔ Visited n' m' a b))
    (hs : ScanInv D cnt N n m st) : ScanInv D cnt N n' m' st := by
  rcases hs with ⟨e, hnone⟩ | ⟨i, j, e, hij, hv, hmin⟩
  · exact Or.inl ⟨e, fun a b hab hv => hnone a b hab ((h a b hab).2 hv)⟩
  · exact Or.inr ⟨i, j, e, hij, (h i j hij).1 hv,
      fun a b hab hv' => hmin a b hab ((h a b hab).2 hv')⟩

theorem scanInv_init (D : TVVec α) (cnt : List Nat) (N : Nat) :
    ScanInv D cnt N 0 1 { MnI := -1, MnJ := -1, MnDist := none } := by
  refine Or.inl ⟨rfl, ?_⟩
  intro a b hab hv
  unfold ActivePair at hab
  unfold Visited at hv
  omega

theorem scanInv_body {D : TVVec α} {cnt : List Nat} {N n m : Nat} {st : MnSt α}
    (hnm : n < m) (hmN : m < N) (hn : cnt.getD n 0 ≠ 0)
    (hs : ScanInv D cnt N n m st) :
    ScanInv D cnt N n (m + 1) (scanBody D cnt n st m) := by
  unfold scanBody
  by_cases hskip : n = m ∨ cnt.getD m 0 = 0
  · rw [if_pos hskip]
    refine scanInv_congr ?_ hs
    intro a b hab
    unfold ActivePair at hab
    unfold Visited
    constructor
    · intro h; omega
    · intro h
      rcases h with h | ⟨h1, h2⟩
      · exact Or.inl h
      · by_cases hb : b = m
        · subst hb
          rcases hskip with h | h
          · omega
          · exact absurd h hab.2.2.2
        · exact Or.inr ⟨h1, by omega⟩
  · rw [if_neg hskip]
    have hm : cnt.getD m 0 ≠ 0 := fun h => hskip (Or.inr h)
    have hpair : ActivePair cnt N n m := ⟨hnm, hmN, hn, hm⟩
    have hvis : Visited n (m + 1) n m := Or.inr ⟨rfl, Nat.lt_succ_self m⟩
    have hsplit : ∀ a b, Visited n (m + 1) a b → Visited n m a b ∨ (a = n ∧ b = m) := by
      intro a b h
      unfold Visited at h ⊢
      omega
    rcases hs with ⟨e, hnone⟩ | ⟨i, j, e, hij, hv, hmin⟩
    · subst e
      simp only [ltMn, if_true]
      refine Or.inr ⟨n, m, rfl, hpair, hvis, ?_⟩
      intro a b hab hv
      rcases hsplit a b hv with h | ⟨rfl, rfl⟩
      · exact absurd h (hnone a b hab)
      · exact ⟨le_refl _, fun h => by unfold LexLt at h; omega⟩
    · subst e
      simp only [ltMn]
      by_cases hlt : D.At n m < D.At i j
      · rw [if_pos (by simpa using hlt)]
        refine Or.inr ⟨n, m, rfl, hpair, hvis, ?_⟩
        intro a b hab hv'
        rcases hsplit a b hv' with h | ⟨rfl, rfl⟩
        · have := (hmin a b hab h).1
          exact ⟨le_of_lt (lt_of_lt_of_le hlt this), fun _ => lt_of_lt_of_le hlt this⟩
        · exact ⟨le_refl _, fun h => by unfold LexLt at h; omega⟩
      · rw [if_neg (by simpa using hlt)]
        refine Or.inr ⟨i, j, rfl, hij, ?_, ?_⟩
        · unfold Visited at hv ⊢; omega
        · intro a b hab hv'
          rcases hsplit a b hv' with h | ⟨rfl, rfl⟩
          · exact hmin a b hab h
          · refine ⟨not_lt.mp hlt, fun h => ?_⟩
            unfold LexLt at h
            unfold Visited at hv
            omega

theorem scanInv_row_aux {D : TVVec α} {cnt : List Nat} {N n : Nat}
    (hn : cnt.getD n 0 ≠ 0) :
    ∀ (k m : Nat) (st : MnSt α), m + k = N → n < m → ScanInv D cnt N n m st →
      ScanInv D cnt N n N ((List.range' m k).foldl (scanBody D cnt n) st) := by
  intro k
  induction k with
  | zero =>
    intro m st hmk _ hs
    have : m = N := by omega
    subst this
    simpa using hs
  | succ k ih =>
    intro m st hmk hnm hs
    rw [List.range'_succ, List.foldl_cons]
    exact ih (m + 1) _ (by omega) (by omega) (scanInv_body hnm (by omega) hn hs)

theorem scanInv_outer {D : TVVec α} {cnt : List Nat} {N n : Nat} {st : MnSt α}
    (hnN : n < N) (hs : ScanInv D cnt N n (n + 1) st) :
    ScanInv D cnt N (n + 1) (n + 2) (scanOuter D cnt N st n) := by
  unfold scanOuter
  by_cases hz : cnt.getD n 0 = 0
  · rw [if_pos hz]
    refine scanInv_congr ?_ hs
    intro a b hab
    unfold ActivePair at hab
    unfold Visited
    constructor
    · intro h; omega
    · intro h
      by_cases ha : a = n
      · subst ha; exact absurd hz hab.2.2.1
      · omega
  · rw [if_neg hz]
    have := scanInv_row_aux hz (N - (n + 1)) (n + 1) st (by omega) (Nat.lt_succ_self n) hs
    refine scanInv_congr ?_ this
    intro a b hab
    unfold ActivePair at hab
    unfold Visited
    omega

theorem scanInv_outer_aux {D : TVVec α} {cnt : List Nat} {N : Nat} :
    ∀ (k n : Nat) (st : MnSt α), n + k = N → ScanInv D cnt N n (n + 1) st →
      ScanInv D cnt N N (N + 1) ((List.range' n k).foldl (scanOuter D cnt N) st) := by
  intro k
  induction k with
  | zero =>
    intro n st hnk hs
    have : n = N := by omega
    subst this
    simpa using hs
  | succ k ih =>
    intro n st hnk hs
    rw [List.range'_succ, List.foldl_cons]
    exact ih (n + 1) _ (by omega) (scanInv_outer (by omega) hs)

/-- The search ends with the first minimal active pair, or untouched when there
is no active pair. -/
theorem findMin_spec (D : TVVec α) (cnt : List Nat) (N : Nat) :
    (findMin D cnt N = { MnI := -1, MnJ := -1, MnDist := none } ∧
        ∀ a b, ¬ ActivePair cnt N a b) ∨
      ∃ i j : Nat, findMin D cnt N = { MnI := i, MnJ := j, MnDist := some (D.At i j) } ∧
        FirstMin D cnt N i j := by
  have h : ScanInv D cnt N N (N + 1)
      ((List.range' 0 N).foldl (scanOuter D cnt N) { MnI := -1, MnJ := -1, MnDist := none }) :=
    scanInv_outer_aux N 0 _ (by omega) (scanInv_init D cnt N)
  have hall : ∀ a b, ActivePair cnt N a b → Visited N (N + 1) a b := by
    intro a b hab
    unfold ActivePair at hab
    unfold Visited
    omega
  unfold findMin
  rw [List.range_eq_range']
  rcases h with ⟨e, hnone⟩ | ⟨i, j, e, hij, _, hmin⟩
  · exact Or.inl ⟨e, fun a b hab => hnone a b hab (hall a b hab)⟩
  · exact Or.inr ⟨i, j, e, hij, fun a b hab => hmin a b hab (hall a b hab)⟩


theorem getD_set_nat (l : List Nat) (i k a : Nat) (h : i < l.length) :
    (l.set i a).getD k 0 = if k = i then a else l.getD k 0 := by
  by_cases hk : k = i
  · subst hk
    simp [List.getD_eq_getElem?_getD, List.getElem?_set, h]
  · have : ¬ i = k := fun e => hk e.symm
    simp [List.getD_eq_getElem?_getD, List.getElem?_set, hk, this]

theorem sum_set_nat (l : List Nat) : ∀ (i a : Nat), i < l.length →
    (l.set i a).sum + l.getD i 0 = l.sum + a := by
  induction l with
  | nil => intro i a h; simp at h
  | cons x t ih =>
    intro i a h
    cases i with
    | zero => simp; omega
    | succ i =>
      have := ih i a (by simpa using h)
      simp only [List.set_cons_succ, List.sum_cons, List.getD_cons_succ]
      omega

theorem activeCount_cons (x : Nat) (t : List Nat) :
    activeCount (x :: t) = (if x ≠ 0 then 1 else 0) + activeCount t := by
  unfold activeCount
  by_cases hx : x = 0
  · simp [hx]
  · simp [List.filter_cons, hx]; omega

theorem activeCount_set (l : List Nat) : ∀ (i a : Nat), i < l.length →
    activeCount (l.set i a) + (if l.getD i 0 ≠ 0 then 1 else 0)
      = activeCount l + (if a ≠ 0 then 1 else 0) := by
  induction l with
  | nil => intro i a h; simp at h
  | cons x t ih =>
    intro i a h
    cases i with
    | zero =>
      simp only [List.set_cons_zero, activeCount_cons, List.getD_cons_zero]
      omega
    | succ i =>
      have := ih i a (by simpa using h)
      simp only [List.set_cons_succ, activeCount_cons, List.getD_cons_succ]
      omega

theorem exists_active (l : List Nat) (h : 1 ≤ activeCount l) :
    ∃ a, a < l.length ∧ l.getD a 0 ≠ 0 := by
  induction l with
  | nil => simp [activeCount] at h
  | cons x t ih =>
    by_cases hx : x = 0
    · rw [activeCount_cons, if_neg (by simpa using hx)] at h
      obtain ⟨a, ha, hna⟩ := ih (by omega)
      exact ⟨a + 1, by simpa using ha, by simpa using hna⟩
    · exact ⟨0, by simp, by simpa using hx⟩

theorem exists_activePair (l : List Nat) (h : 2 ≤ activeCount l) :
    ∃ a b, ActivePair l l.length a b := by
  induction l with
  | nil => simp [activeCount] at h
  | cons x t ih =>
    by_cases hx : x = 0
    · rw [activeCount_cons, if_neg (by simpa using hx)] at h
      obtain ⟨a, b, hab, hb, hna, hnb⟩ := ih (by omega)
      exact ⟨a + 1, b + 1, by omega, by simpa using hb, by simpa using hna, by simpa using hnb⟩
    · rw [activeCount_cons, if_pos hx] at h
      obtain ⟨b, hb, hnb⟩ := exists_active t (by omega)
      exact ⟨0, b + 1, by omega, by simpa using hb, by simpa using hx, by simpa using hnb⟩

theorem one_le_activeCount (l : List Nat) : ∀ b, b < l.length →
    l.getD b 0 ≠ 0 → 1 ≤ activeCount l := by
  induction l with
  | nil => intro b hb; simp at hb
  | cons x t ih =>
    intro b hb hnb
    rw [activeCount_cons]
    cases b with
    | zero =>
      have hx : x ≠ 0 := by simpa using hnb
      rw [if_pos hx]; omega
    | succ b =>
      have := ih b (by simpa using hb) (by simpa using hnb)
      omega

theorem two_le_activeCount (l : List Nat) : ∀ a b, a < b → b < l.length →
    l.getD a 0 ≠ 0 → l.getD b 0 ≠ 0 → 2 ≤ activeCount l := by
  induction l with
  | nil => intro a b _ hb; simp at hb
  | cons x t ih =>
    intro a b hab hb hna hnb
    rw [activeCount_cons]
    cases b with
    | zero => omega
    | succ b =>
      cases a with
      | zero =>
        have hx : x ≠ 0 := by simpa using hna
        rw [if_pos hx]
        have := one_le_activeCount t b (by simpa using hb) (by simpa using hnb)
        omega
      | succ a =>
        have := ih a b (by omega) (by simpa using hb) (by simpa using hna) (by simpa using hnb)
        omega

theorem getD_joinCounts (l : List Nat) (i j k : Nat) (hi : i < l.length)
    (hj : j < l.length) :
    (joinCounts l i j).getD k 0
      = if k = j then 0 else if k = i then l.getD i 0 + l.getD j 0 else l.getD k 0 := by
  unfold joinCounts
  rw [getD_set_nat _ _ _ _ (by simpa using hj), getD_set_nat _ _ _ _ hi]

theorem length_joinCounts (l : List Nat) (i j : Nat) :
    (joinCounts l i j).length = l.length := by
  simp [joinCounts]

theorem sum_joinCounts (l : List Nat) (i j : Nat) (hi : i < l.length)
    (hj : j < l.length) (hij : i ≠ j) : (joinCounts l i j).sum = l.sum := by
  unfold joinCounts
  have h1 := sum_set_nat l i (l.getD i 0 + l.getD j 0) hi
  have h2 := sum_set_nat (l.set i (l.getD i 0 + l.getD j 0)) j 0 (by simpa using hj)
  rw [getD_set_nat _ _ _ _ hi, if_neg (show ¬ j = i from fun e => hij e.symm)] at h2
  omega

theorem activeCount_joinCounts (l : List Nat) (i j : Nat) (hi : i < l.length)
    (hj : j < l.length) (hij : i ≠ j) (hai : l.getD i 0 ≠ 0) (haj : l.getD j 0 ≠ 0) :
    activeCount (joinCounts l i j) + 1 = activeCount l := by
  unfold joinCounts
  have h1 := activeCount_set l i (l.getD i 0 + l.getD j 0) hi
  have h2 := activeCount_set (l.set i (l.getD i 0 + l.getD j 0)) j 0 (by simpa using hj)
  rw [getD_set_nat _ _ _ _ hi, if_neg (show ¬ j = i from fun e => hij e.symm)] at h2
  rw [if_pos hai, if_pos (by omega)] at h1
  rw [if_pos haj, if_neg (by simp)] at h2
  omega

theorem clamp_eq_max (v : α) : (if v < 0 then 0 else v) = max 0 v := by
  by_cases h : v < 0
  · rw [if_pos h, max_eq_left (le_of_lt h)]
  · rw [if_neg h, max_eq_right (not_lt.mp h)]

/-- One iteration of the merge loop, as long as two slots are active: the search
finds the first minimal active pair and the iteration merges it. -/
theorem mergeStep_spec (J : TLink α) (sqrt : α → α) (N : Nat) (s : DendroSt α)
    (hlen : s.ItemCountV.length = N) (h2 : 2 ≤ activeCount s.ItemCountV) :
    ∃ i j : Nat, FirstMin s.ClustDistVV s.ItemCountV N i j ∧
      mergeStep J sqrt N s = some (mergedSt J sqrt s i j) := by
  obtain ⟨a, b, hab⟩ := exists_activePair s.ItemCountV h2
  rw [hlen] at hab
  rcases findMin_spec s.ClustDistVV s.ItemCountV N with ⟨_, hnone⟩ | ⟨i, j, e, hmin⟩
  · exact absurd hab (hnone a b)
  · refine ⟨i, j, hmin, ?_⟩
    simp [mergeStep, e, mergedSt, joinCounts, clamp_eq_max]

theorem loopInv_init (GetDist2VV : TVVec α → TVVec α → TVVec α) (X : TVVec α)
    (MergeV : List (TIntIntFltTr α)) :
    LoopInv X.GetCols MergeV 0 (initSt GetDist2VV X MergeV) [] where
  len := by simp [initSt]
  sum := by simp [initSt]
  act := by simp [initSt, activeCount]
  merge := by simp [initSt]
  llen := rfl
  range := by simp
  right := by simp
  cover := by
    intro idx hidx h
    simp [initSt, List.getD_eq_getElem?_getD, List.getElem?_replicate, hidx] at h
  last := by simp
  later := List.Pairwise.nil

theorem loopInv_step (J : TLink α) (sqrt : α → α) {N : Nat}
    {M0 : List (TIntIntFltTr α)} {k : Nat} {s : DendroSt α} {L : List (TIntIntFltTr α)}
    (h : LoopInv N M0 k s L) {i j : Nat} (hmin : FirstMin s.ClustDistVV s.ItemCountV N i j) :
    LoopInv N M0 (k + 1) (mergedSt J sqrt s i j)
      (L ++ [((i : Int), (j : Int), sqrt (max 0 (s.ClustDistVV.At i j)))]) := by
  obtain ⟨⟨hij, hjN, hai, haj⟩, _⟩ := hmin
  have hi : i < s.ItemCountV.length := by rw [h.len]; omega
  have hj : j < s.ItemCountV.length := by rw [h.len]; omega
  have hne : i ≠ j := by omega
  have hget := fun k => getD_joinCounts s.ItemCountV i j k hi hj
  refine ⟨?_, ?_, ?_, ?_, ?_, ?_, ?_, ?_, ?_, ?_⟩
  · simp [mergedSt, length_joinCounts, h.len]
  · simp [mergedSt, sum_joinCounts _ _ _ hi hj hne, h.sum]
  · have := activeCount_joinCounts s.ItemCountV i j hi hj hne hai haj
    have := h.act
    simp only [mergedSt]
    omega
  · simp [mergedSt, h.merge]
  · simp [h.llen]
  · intro r hr
    rcases List.mem_append.mp hr with hr | hr
    · exact h.range r hr
    · rw [List.mem_singleton] at hr
      subst hr
      exact ⟨i, j, rfl, rfl, hij, hjN⟩
  · intro r hr
    simp only [mergedSt]
    rw [hget]
    rcases List.mem_append.mp hr with hr | hr
    · have hz := h.right r hr
      by_cases e1 : r.2.1.toNat = j
      · rw [if_pos e1]
      · rw [if_neg e1]
        by_cases e2 : r.2.1.toNat = i
        · rw [e2] at hz; exact absurd hz hai
        · rw [if_neg e2]; exact hz
    · rw [List.mem_singleton] at hr
      subst hr
      simp
  · intro idx hidx hz
    simp only [mergedSt] at hz
    rw [hget] at hz
    by_cases e1 : idx = j
    · subst e1
      exact ⟨_, List.mem_append_right _ (List.mem_singleton_self _), rfl⟩
    · rw [if_neg e1] at hz
      by_cases e2 : idx = i
      · rw [if_pos e2] at hz; omega
      · rw [if_neg e2] at hz
        obtain ⟨r, hr, e⟩ := h.cover idx hidx hz
        exact ⟨r, List.mem_append_left _ hr, e⟩
  · intro r hr
    rw [List.getLast?_concat, Option.some.injEq] at hr
    subst hr
    simp only [mergedSt]
    rw [hget]
    simp only [Int.toNat_ofNat]
    rw [if_neg hne, if_pos trivial]
    omega
  · rw [List.pairwise_append]
    refine ⟨h.later, List.pairwise_singleton _ _, ?_⟩
    intro r hr r' hr'
    rw [List.mem_singleton] at hr'
    subst hr'
    have hz := h.right r hr
    constructor
    · intro e
      simp only at e
      rw [e] at hz
      exact hai (by simpa using hz)
    · intro e
      simp only at e
      rw [e] at hz
      exact haj (by simpa using hz)

theorem mergeLoop_succ (J : TLink α) (sqrt : α → α) (N : Nat) :
    ∀ (k : Nat) (s : DendroSt α),
      mergeLoop J sqrt N (k + 1) s = (mergeLoop J sqrt N k s).bind (mergeStep J sqrt N) := by
  intro k
  induction k with
  | zero =>
    intro s
    simp only [mergeLoop, Option.some_bind]
    cases h : mergeStep J sqrt N s <;> rfl
  | succ k ih =>
    intro s
    rw [mergeLoop]
    cases h : mergeStep J sqrt N s with
    | none => simp [mergeLoop, h]
    | some s1 =>
      simp only [Option.some_bind]
      rw [ih s1]
      conv_rhs => rw [mergeLoop, h, Option.some_bind]

/-- The merge loop runs through its `NInst - 1` iterations: after each of them
the state exists, the invariant holds for the records written so far, and so
does any further property `Q` that every merge of a first minimal pair
preserves. -/
theorem mergeLoop_run (J : TLink α) (sqrt : α → α) {N : Nat}
    {M0 : List (TIntIntFltTr α)} (Q : DendroSt α → List (TIntIntFltTr α) → Prop)
    (s0 : DendroSt α) (h0 : LoopInv N M0 0 s0 []) (q0 : Q s0 [])
    (hQ : ∀ k s L i j, LoopInv N M0 k s L → Q s L →
      FirstMin s.ClustDistVV s.ItemCountV N i j →
      Q (mergedSt J sqrt s i j)
        (L ++ [((i : Int), (j : Int), sqrt (max 0 (s.ClustDistVV.At i j)))])) :
    ∀ n, n ≤ N - 1 → ∃ L : List (TIntIntFltTr α), L.length = n ∧
      ∀ k, k ≤ n → ∃ s, mergeLoop J sqrt N k s0 = some s ∧
        LoopInv N M0 k s (L.take k) ∧ Q s (L.take k) := by
  intro n
  induction n with
  | zero =>
    intro _
    refine ⟨[], rfl, ?_⟩
    intro k hk
    have : k = 0 := by omega
    subst this
    exact ⟨s0, rfl, h0, q0⟩
  | succ n ih =>
    intro hn
    obtain ⟨L, hL, hk⟩ := ih (by omega)
    obtain ⟨s, hs, hinv, hq⟩ := hk n (le_refl n)
    have htake : L.take n = L := by rw [← hL]; exact List.take_length L
    rw [htake] at hinv hq
    have hact := hinv.act
    obtain ⟨i, j, hmin, hstep⟩ := mergeStep_spec J sqrt N s hinv.len (by omega)
    refine ⟨L ++ [((i : Int), (j : Int), sqrt (max 0 (s.ClustDistVV.At i j)))],
      by simp [hL], ?_⟩
    intro k hk'
    by_cases hkn : k ≤ n
    · rw [List.take_append_of_le_length (by omega)]
      exact hk k hkn
    · have : k = n + 1 := by omega
      subst this
      rw [List.take_of_length_le (by simp [hL])]
      refine ⟨mergedSt J sqrt s i j, ?_, loopInv_step J sqrt hinv hmin,
        hQ n s L i j hinv hq hmin⟩
      rw [mergeLoop_succ, hs, Option.some_bind, hstep]

/-- Run of `MakeDendro`: the result exists and is the `MergeV` passed in
followed by `NInst - 1` records, whose first `k` are the ones written by the
first `k` iterations. -/
theorem MakeDendro_run (GetDist2VV : TVVec α → TVVec α → TVVec α) (J : TLink α)
    (sqrt : α → α) (X : TVVec α) (MergeV : List (TIntIntFltTr α))
    (Q : DendroSt α → List (TIntIntFltTr α) → Prop)
    (q0 : Q (initSt GetDist2VV X MergeV) [])
    (hQ : ∀ k s L i j, LoopInv X.GetCols MergeV k s L → Q s L →
      FirstMin s.ClustDistVV s.ItemCountV X.GetCols i j →
      Q (mergedSt J sqrt s i j)
        (L ++ [((i : Int), (j : Int), sqrt (max 0 (s.ClustDistVV.At i j)))])) :
    ∃ L : List (TIntIntFltTr α), L.length = X.GetCols - 1 ∧
      MakeDendro GetDist2VV J sqrt X MergeV = some (MergeV ++ L) ∧
      ∀ k, k ≤ X.GetCols - 1 → ∃ s,
        mergeLoop J sqrt X.GetCols k (initSt GetDist2VV X MergeV) = some s ∧
        LoopInv X.GetCols MergeV k s (L.take k) ∧ Q s (L.take k) := by
  obtain ⟨L, hL, hk⟩ := mergeLoop_run J sqrt Q (initSt GetDist2VV X MergeV)
    (loopInv_init GetDist2VV X MergeV) q0 hQ (X.GetCols - 1) (le_refl _)
  refine ⟨L, hL, ?_, hk⟩
  obtain ⟨s, hs, hinv, _⟩ := hk (X.GetCols - 1) (le_refl _)
  have htake : L.take (X.GetCols - 1) = L := by rw [← hL]; exact List.take_length L
  rw [htake] at hinv
  simp only [MakeDendro, hs, Option.map_some', hinv.merge]

/-- C2: for a matrix `X` with `N ≥ 1` columns (its values finite, as every
value of the field is) and any linkage, `MakeDendro` returns the `MergeV` it
was given followed by exactly `N - 1` records, the first `k` of them being
those written by the first `k` iterations of the loop; from an empty `MergeV`
the result has length `N - 1`. -/
theorem MakeDendro_appends (GetDist2VV : TVVec α → TVVec α → TVVec α) (J : TLink α)
    (sqrt : α → α) (X : TVVec α) (MergeV : List (TIntIntFltTr α))
    (hN : 1 ≤ X.GetCols) :
    (∃ L : List (TIntIntFltTr α), L.length = X.GetCols - 1 ∧
      MakeDendro GetDist2VV J sqrt X MergeV = some (MergeV ++ L) ∧
      ∀ k, k ≤ X.GetCols - 1 → ∃ s,
        mergeLoop J sqrt X.GetCols k (initSt GetDist2VV X MergeV) = some s ∧
        s.MergeV = MergeV ++ L.take k) ∧
    ∃ L0, MakeDendro GetDist2VV J sqrt X [] = some L0 ∧ L0.length = X.GetCols - 1 := by
  have _ := hN
  constructor
  · obtain ⟨L, hL, hres, hk⟩ := MakeDendro_run GetDist2VV J sqrt X MergeV
      (fun _ _ => True) trivial (fun _ _ _ _ _ _ _ _ => trivial)
    refine ⟨L, hL, hres, ?_⟩
    intro k hk'
    obtain ⟨s, hs, hinv, _⟩ := hk k hk'
    exact ⟨s, hs, hinv.merge⟩
  · obtain ⟨L, hL, hres, _⟩ := MakeDendro_run GetDist2VV J sqrt X []
      (fun _ _ => True) trivial (fun _ _ _ _ _ _ _ _ => trivial)
    exact ⟨L, by simpa using hres, hL⟩

/-- C5: the item counts start as all ones and, after each of the iterations of
the merge loop, their sum over all slots is the number `N` of points and
exactly `N - k` slots have a count that is not zero, `k` being the number of
merges done; each merge rewrites the counts by
`ItemCountV[MnI] += ItemCountV[MnJ]; ItemCountV[MnJ] = 0`. -/
theorem ItemCountV_invariant (GetDist2VV : TVVec α → TVVec α → TVVec α) (J : TLink α)
    (sqrt : α → α) (X : TVVec α) (MergeV : List (TIntIntFltTr α)) :
    (initSt GetDist2VV X MergeV).ItemCountV = List.replicate X.GetCols 1 ∧
    (∀ k, k ≤ X.GetCols - 1 → ∃ s,
      mergeLoop J sqrt X.GetCols k (initSt GetDist2VV X MergeV) = some s ∧
      s.ItemCountV.sum = X.GetCols ∧
      (s.ItemCountV.filter fun c => decide (c ≠ 0)).length = X.GetCols - k) ∧
    ∀ k, k < X.GetCols - 1 → ∃ s s' i j,
      mergeLoop J sqrt X.GetCols k (initSt GetDist2VV X MergeV) = some s ∧
      mergeLoop J sqrt X.GetCols (k + 1) (initSt GetDist2VV X MergeV) = some s' ∧
      i ≠ j ∧ i < X.GetCols ∧ j < X.GetCols ∧
      s'.ItemCountV = (s.ItemCountV.set i
        (s.ItemCountV.getD i 0 + s.ItemCountV.getD j 0)).set j 0 := by
  obtain ⟨L, hL, _, hk⟩ := MakeDendro_run GetDist2VV J sqrt X MergeV
    (fun _ _ => True) trivial (fun _ _ _ _ _ _ _ _ => trivial)
  refine ⟨rfl, ?_, ?_⟩
  · intro k hk'
    obtain ⟨s, hs, hinv, _⟩ := hk k hk'
    refine ⟨s, hs, hinv.sum, ?_⟩
    have := hinv.act
    unfold activeCount at this
    omega
  · intro k hk'
    obtain ⟨s, hs, hinv, _⟩ := hk k (by omega)
    have hact := hinv.act
    obtain ⟨i, j, hmin, hstep⟩ := mergeStep_spec J sqrt X.GetCols s hinv.len (by omega)
    obtain ⟨hij, hjN, _, _⟩ := hmin.1
    refine ⟨s, mergedSt J sqrt s i j, i, j, hs, ?_, by omega, by omega, hjN, rfl⟩
    rw [mergeLoop_succ, hs, Option.some_bind, hstep]

/-- C4: for `N ≥ 2` points and any linkage, every index below `N` is the left
or the right element of one of the `N - 1` records `MakeDendro` writes: the
right elements are `N - 1` distinct slots, and a slot that is no right element
is the left element of the last record. -/
theorem MakeDendro_covers (GetDist2VV : TVVec α → TVVec α → TVVec α) (J : TLink α)
    (sqrt : α → α) (X : TVVec α) (MergeV : List (TIntIntFltTr α))
    (hN : 2 ≤ X.GetCols) :
    ∃ L : List (TIntIntFltTr α), L.length = X.GetCols - 1 ∧
      MakeDendro GetDist2VV J sqrt X MergeV = some (MergeV ++ L) ∧
      (∀ idx, idx < X.GetCols → ∃ r ∈ L, r.1 = (idx : Int) ∨ r.2.1 = (idx : Int)) ∧
      (L.map fun r => r.2.1).Nodup ∧
      ∀ idx, idx < X.GetCols →
        (∃ r ∈ L, r.2.1 = (idx : Int)) ∨ ∃ r, L.getLast? = some r ∧ r.1 = (idx : Int) := by
  obtain ⟨L, hL, hres, hk⟩ := MakeDendro_run GetDist2VV J sqrt X MergeV
    (fun _ _ => True) trivial (fun _ _ _ _ _ _ _ _ => trivial)
  obtain ⟨s, _, hinv, _⟩ := hk (X.GetCols - 1) (le_refl _)
  have htake : L.take (X.GetCols - 1) = L := by rw [← hL]; exact List.take_length L
  rw [htake] at hinv
  have hsplit : ∀ idx, idx < X.GetCols →
      (∃ r ∈ L, r.2.1 = (idx : Int)) ∨ ∃ r, L.getLast? = some r ∧ r.1 = (idx : Int) := by
    intro idx hidx
    by_cases hz : s.ItemCountV.getD idx 0 = 0
    · exact Or.inl (hinv.cover idx hidx hz)
    · right
      have hne : L ≠ [] := by
        intro e
        rw [e] at hL
        simp at hL
        omega
      have hlast : L.getLast? = some (L.getLast hne) := List.getLast?_eq_getLast L hne
      refine ⟨L.getLast hne, hlast, ?_⟩
      have hactive := hinv.last _ hlast
      obtain ⟨i, j, hi, _, hij, hjN⟩ := hinv.range _ (List.getLast_mem hne)
      rw [hi] at hactive ⊢
      simp only [Int.toNat_ofNat] at hactive
      have hact := hinv.act
      by_contra hne'
      have hii : i ≠ idx := fun e => hne' (by rw [e])
      have hlen := hinv.len
      rcases Nat.lt_or_gt_of_ne hii with h | h
      · have := two_le_activeCount s.ItemCountV i idx h (by omega) hactive hz
        omega
      · have := two_le_activeCount s.ItemCountV idx i h (by omega) hz hactive
        omega
  refine ⟨L, hL, hres, ?_, ?_, hsplit⟩
  · intro idx hidx
    rcases hsplit idx hidx with ⟨r, hr, e⟩ | ⟨r, hr, e⟩
    · exact ⟨r, hr, Or.inr e⟩
    · exact ⟨r, List.mem_of_getLast?_eq_some hr, Or.inl e⟩
  · unfold List.Nodup
    rw [List.pairwise_map]
    exact hinv.later.imp fun h => h.2

/-- C10: for `N ≥ 2` points (matrix values finite, as every value of the field
is) and any linkage, `MakeDendro` runs to its end, and at every iteration `k`
the record written is `(i, j, sqrt (max 0 D(i,j)))` where `i < j`, both slots
are active at that moment, `D(i,j)` is at most `D(a,b)` for every pair of
active slots `a < b`, and no pair before `(i, j)` in the order of the search
attains that value; no record holds `-1`, and the right element of a record is
neither element of any later record. -/
theorem MakeDendro_records (GetDist2VV : TVVec α → TVVec α → TVVec α) (J : TLink α)
    (sqrt : α → α) (X : TVVec α) (MergeV : List (TIntIntFltTr α))
    (hN : 2 ≤ X.GetCols) :
    ∃ L : List (TIntIntFltTr α), L.length = X.GetCols - 1 ∧
      MakeDendro GetDist2VV J sqrt X MergeV = some (MergeV ++ L) ∧
      (∀ k, k < X.GetCols - 1 → ∃ (s : DendroSt α) (i j : Nat),
        mergeLoop J sqrt X.GetCols k (initSt GetDist2VV X MergeV) = some s ∧
        s.MergeV = MergeV ++ L.take k ∧
        L.get? k = some ((i : Int), (j : Int), sqrt (max 0 (s.ClustDistVV.At i j))) ∧
        i < j ∧ j < X.GetCols ∧
        0 < s.ItemCountV.getD i 0 ∧ 0 < s.ItemCountV.getD j 0 ∧
        (∀ a b, a < b → b < X.GetCols → 0 < s.ItemCountV.getD a 0 →
          0 < s.ItemCountV.getD b 0 →
          s.ClustDistVV.At i j ≤ s.ClustDistVV.At a b ∧
          ((a < i ∨ (a = i ∧ b < j)) → s.ClustDistVV.At i j < s.ClustDistVV.At a b))) ∧
      (∀ r ∈ L, r.1 ≠ -1 ∧ r.2.1 ≠ -1) ∧
      L.Pairwise fun r r' => r.2.1 ≠ r'.1 ∧ r.2.1 ≠ r'.2.1 := by
  obtain ⟨L, hL, hres, hk⟩ := MakeDendro_run GetDist2VV J sqrt X MergeV
    (fun _ _ => True) trivial (fun _ _ _ _ _ _ _ _ => trivial)
  obtain ⟨sN, _, hinvN, _⟩ := hk (X.GetCols - 1) (le_refl _)
  have htake : L.take (X.GetCols - 1) = L := by rw [← hL]; exact List.take_length L
  rw [htake] at hinvN
  have _ := hN
  refine ⟨L, hL, hres, ?_, ?_, hinvN.later⟩
  · intro k hk'
    obtain ⟨s, hs, hinv, _⟩ := hk k (by omega)
    obtain ⟨s', hs', hinv', _⟩ := hk (k + 1) (by omega)
    have hact := hinv.act
    obtain ⟨i, j, hmin, hstep⟩ := mergeStep_spec J sqrt X.GetCols s hinv.len (by omega)
    have hs'' : s' = mergedSt J sqrt s i j := by
      rw [mergeLoop_succ, hs, Option.some_bind, hstep] at hs'
      exact (Option.some.inj hs').symm
    have hrec : L.take (k + 1)
        = L.take k ++ [((i : Int), (j : Int), sqrt (max 0 (s.ClustDistVV.At i j)))] := by
      have h1 := hinv'.merge
      rw [hs''] at h1
      simp only [mergedSt] at h1
      rw [hinv.merge, List.append_assoc] at h1
      exact (List.append_cancel_left h1).symm
    obtain ⟨⟨hij, hjN, hai, haj⟩, hall⟩ := hmin
    refine ⟨s, i, j, hs, hinv.merge, ?_, hij, hjN, Nat.pos_of_ne_zero hai,
      Nat.pos_of_ne_zero haj, ?_⟩
    · have hklt : k < L.length := by omega
      have h2 : (L.take (k + 1)).get? k = L.get? k := by
        simp [List.getElem?_take]
      rw [← h2, hrec]
      have hlen : (L.take k).length = k := by simp; omega
      simp [List.getElem?_append_right, hlen]
    · intro a b hab hb ha0 hb0
      exact hall a b ⟨hab, hb, Nat.pos_iff_ne_zero.mp ha0, Nat.pos_iff_ne_zero.mp hb0⟩
  · intro r hr
    obtain ⟨i, j, hi, hj, _, _⟩ := hinvN.range r hr
    rw [hi, hj]
    constructor <;> omega

end TAggClust

/-! ## Monotone merge distances -/

theorem GetDist2VV_symm (X : TVVec α) (a b : Nat) :
    (TDistance.TEuclDist.GetDist2VV X X).At a b
      = (TDistance.TEuclDist.GetDist2VV X X).At b a := by
  have h : (fun k => X.At k a * X.At k b) = fun k => X.At k b * X.At k a := by
    funext k
    ring
  simp only [TDistance.TEuclDist.GetDist2VV, TDistance.TEuclDist.GetDist2VVN,
    TLinAlg.MultiplyT, h]
  ring

theorem JoinWith_symm (f : α → α → α) (D : TVVec α) (cnt : List Nat) (i j : Nat)
    (hsym : ∀ a b, D.At a b = D.At b a) (a b : Nat) :
    (JoinWith f D cnt i j).At a b = (JoinWith f D cnt i j).At b a := by
  simp only [JoinWith]
  by_cases ha : a = i
  · by_cases hb : b = i
    · rw [ha, hb]
    · by_cases hcb : cnt.getD b 0 = 0
      · rw [if_neg (fun h => h.2 hcb), if_neg (fun h => hb h.1), if_neg (fun h => hb h.1),
          if_neg (fun h => h.2 hcb)]
        exact hsym a b
      · rw [if_pos ⟨ha, hcb⟩, if_neg (fun h => hb h.1), if_pos ⟨ha, hcb⟩]
  · by_cases hb : b = i
    · by_cases hca : cnt.getD a 0 = 0
      · rw [if_neg (fun h => ha h.1), if_neg (fun h => h.2 hca), if_neg (fun h => h.2 hca),
          if_neg (fun h => ha h.1)]
        exact hsym a b
      · rw [if_neg (fun h => ha h.1), if_pos ⟨hb, hca⟩, if_pos ⟨hb, hca⟩]
    · rw [if_neg (fun h => ha h.1), if_neg (fun h => hb h.1), if_neg (fun h => hb h.1),
        if_neg (fun h => ha h.1)]
      exact hsym a b

namespace TAggClust

theorem firstMin_le_of_ne {D : TVVec α} {cnt : List Nat} {N i j : Nat}
    (hmin : FirstMin D cnt N i j) (hsym : ∀ a b, D.At a b = D.At b a)
    {x y : Nat} (hxy : x ≠ y) (hx : x < N) (hy : y < N)
    (hax : cnt.getD x 0 ≠ 0) (hay : cnt.getD y 0 ≠ 0) : D.At i j ≤ D.At x y := by
  rcases Nat.lt_or_gt_of_ne hxy with h | h
  · exact (hmin.2 x y ⟨h, hy, hax, hay⟩).1
  · rw [hsym x y]
    exact (hmin.2 y x ⟨h, hx, hay, hax⟩).1

/-- After a merge by a linkage whose new value is never below the smaller of the
two old ones, every active pair is at least as far apart as the pair just
merged. -/
theorem JoinWith_ge (f : α → α → α) (hf : ∀ x y, min x y ≤ f x y)
    {D : TVVec α} {cnt : List Nat} {N i j : Nat} (hlen : cnt.length = N)
    (hmin : FirstMin D cnt N i j) (hsym : ∀ a b, D.At a b = D.At b a)
    {a b : Nat} (hab : ActivePair (joinCounts cnt i j) N a b) :
    D.At i j ≤ (JoinWith f D cnt i j).At a b := by
  have ⟨⟨hij, hjN, hai, haj⟩, _⟩ := hmin
  obtain ⟨hlt, hbN, ha', hb'⟩ := hab
  have hi : i < cnt.length := by omega
  have hj : j < cnt.length := by omega
  rw [getD_joinCounts cnt i j _ hi hj] at ha' hb'
  have haj' : a ≠ j := fun e => by rw [if_pos e] at ha'; exact ha' rfl
  have hbj' : b ≠ j := fun e => by rw [if_pos e] at hb'; exact hb' rfl
  have hca : cnt.getD a 0 ≠ 0 := by
    by_cases e : a = i
    · rw [e]; exact hai
    · rw [if_neg haj', if_neg e] at ha'; exact ha'
  have hcb : cnt.getD b 0 ≠ 0 := by
    by_cases e : b = i
    · rw [e]; exact hai
    · rw [if_neg hbj', if_neg e] at hb'; exact hb'
  have key : ∀ x, x ≠ i → x ≠ j → x < N → cnt.getD x 0 ≠ 0 →
      D.At i j ≤ f (D.At i x) (D.At j x) := by
    intro x hxi hxj hxN hcx
    have h1 : D.At i j ≤ D.At i x :=
      firstMin_le_of_ne hmin hsym (fun e => hxi e.symm) (by omega) hxN hai hcx
    have h2 : D.At i j ≤ D.At j x :=
      firstMin_le_of_ne hmin hsym (fun e => hxj e.symm) hjN hxN haj hcx
    exact le_trans (le_min h1 h2) (hf _ _)
  simp only [JoinWith]
  by_cases ea : a = i
  · rw [if_pos ⟨ea, hcb⟩]
    exact key b (by omega) hbj' hbN hcb
  · rw [if_neg (fun h => ea h.1)]
    by_cases eb : b = i
    · rw [if_pos ⟨eb, hca⟩]
      exact key a ea haj' (by omega) hca
    · rw [if_neg (fun h => eb h.1)]
      exact firstMin_le_of_ne hmin hsym (by omega) (by omega) hbN hca hcb

/-- Merge distances of `MakeDendro` on a symmetric distance matrix, for a
linkage `JoinWith f` whose new value is never below the smaller of the two old
ones, are non-decreasing. -/
theorem MakeDendro_sorted_of_ge (GetDist2VV : TVVec α → TVVec α → TVVec α)
    (hD : ∀ X a b, (GetDist2VV X X).At a b = (GetDist2VV X X).At b a)
    (f : α → α → α) (hf : ∀ x y, min x y ≤ f x y)
    (sqrt : α → α) (hsqrt : Monotone sqrt) (X : TVVec α)
    (MergeV : List (TIntIntFltTr α)) :
    ∃ L : List (TIntIntFltTr α), L.length = X.GetCols - 1 ∧
      MakeDendro GetDist2VV (JoinWith f) sqrt X MergeV = some (MergeV ++ L) ∧
      L.Pairwise fun r r' => r.2.2 ≤ r'.2.2 := by
  obtain ⟨L, hL, hres, hk⟩ := MakeDendro_run GetDist2VV (JoinWith f) sqrt X MergeV
    (fun s L => (∀ a b, s.ClustDistVV.At a b = s.ClustDistVV.At b a) ∧
      (∀ r ∈ L, ∀ a b, ActivePair s.ItemCountV X.GetCols a b →
        r.2.2 ≤ sqrt (max 0 (s.ClustDistVV.At a b))) ∧
      L.Pairwise fun r r' => r.2.2 ≤ r'.2.2)
    ⟨hD X, by simp, List.Pairwise.nil⟩
    (by
      intro k s L i j hinv hq hmin
      obtain ⟨hsym, hbound, hsorted⟩ := hq
      have hold : ∀ r ∈ L, r.2.2 ≤ sqrt (max 0 (s.ClustDistVV.At i j)) :=
        fun r hr => hbound r hr i j hmin.1
      refine ⟨JoinWith_symm f _ _ i j hsym, ?_, ?_⟩
      · intro r hr a b hab
        have hge : sqrt (max 0 (s.ClustDistVV.At i j))
            ≤ sqrt (max 0 ((JoinWith f s.ClustDistVV s.ItemCountV i j).At a b)) :=
          hsqrt (max_le_max (le_refl 0) (JoinWith_ge f hf hinv.len hmin hsym hab))
        rcases List.mem_append.mp hr with hr | hr
        · exact le_trans (hold r hr) hge
        · rw [List.mem_singleton] at hr
          subst hr
          exact hge
      · rw [List.pairwise_append]
        refine ⟨hsorted, List.pairwise_singleton _ _, ?_⟩
        intro r hr r' hr'
        rw [List.mem_singleton] at hr'
        subst hr'
        exact hold r hr)
  obtain ⟨s, _, _, hq⟩ := hk (X.GetCols - 1) (le_refl _)
  have htake : L.take (X.GetCols - 1) = L := by rw [← hL]; exact List.take_length L
  rw [htake] at hq
  exact ⟨L, hL, hres, hq.2.2⟩

end TAggClust

/-- C3: for `N ≥ 2` points, `MakeDendro` on the squared-Euclidean distance
matrix with the single-link rule (`min`) or the complete-link rule (`max`), and
a monotone square root, writes records whose merge distances are
non-decreasing in formation order: record `k + 1` is at least as far as record
`k`. -/
theorem MakeDendro_nondecreasing (sqrt : α → α) (hsqrt : Monotone sqrt)
    (X : TVVec α) (hN : 2 ≤ X.GetCols) (J : TLink α)
    (hJ : J = TSingleLink.JoinClusts ∨ J = TCompleteLink.JoinClusts) :
    ∃ L : List (TIntIntFltTr α), L.length = X.GetCols - 1 ∧
      TAggClust.MakeDendro TDistance.TEuclDist.GetDist2VV J sqrt X [] = some L ∧
      ∀ k, k + 1 < L.length → ∀ r r', L.get? k = some r → L.get? (k + 1) = some r' →
        r.2.2 ≤ r'.2.2 := by
  have _ := hN
  have hJ' : ∃ f : α → α → α, (∀ x y, min x y ≤ f x y) ∧ J = JoinWith f := by
    rcases hJ with h | h
    · exact ⟨min, fun _ _ => le_refl _, by rw [h]; rfl⟩
    · exact ⟨max, fun x y => le_trans (min_le_left x y) (le_max_left x y), by rw [h]; rfl⟩
  obtain ⟨f, hf, rfl⟩ := hJ'
  obtain ⟨L, hL, hres, hsorted⟩ := TAggClust.MakeDendro_sorted_of_ge
    TDistance.TEuclDist.GetDist2VV (fun X a b => GetDist2VV_symm X a b) f hf sqrt hsqrt X []
  refine ⟨L, hL, by simpa using hres, ?_⟩
  intro k hk r r' hr hr'
  rw [List.pairwise_iff_get] at hsorted
  have h1 : k < L.length := by omega
  have := hsorted ⟨k, h1⟩ ⟨k + 1, hk⟩ (by simp)
  rw [List.get?_eq_get h1, Option.some.injEq] at hr
  rw [List.get?_eq_get hk, Option.some.injEq] at hr'
  rw [← hr, ← hr']
  exact this

end TClustering

/-! ## Point-to-set distances -/

namespace TDistance

namespace TEuclDist

theorem mapM_ok {β γ : Type} (f : β → Except String γ) (g : β → γ) :
    ∀ l : List β, (∀ a ∈ l, f a = .ok (g a)) → l.mapM f = .ok (l.map g) := by
  intro l
  induction l with
  | nil => intro _; rfl
  | cons a t ih =>
    intro h
    rw [List.mapM_cons, h a (List.mem_cons_self a t), ih fun b hb => h b (List.mem_cons_of_mem a hb)]
    rfl

theorem sum_map_getD (x : List ℝ) (f : ℝ → ℝ) :
    (x.map f).sum = ((List.range x.length).map fun k => f (x.getD k 0)).sum := by
  induction x with
  | nil => simp
  | cons a t ih =>
    rw [List.length_cons, List.range_succ_eq_map, List.map_cons, List.map_cons,
      List.map_map, List.sum_cons, List.sum_cons, ih]
    rfl

theorem sum_expand (c x : Nat → ℝ) : ∀ n : Nat,
    ((List.range n).map fun k => c k * c k).sum
        + (((List.range n).map fun k => x k * x k).sum
          - 2 * ((List.range n).map fun k => c k * x k).sum)
      = ((List.range n).map fun k => (x k - c k) ^ 2).sum := by
  intro n
  induction n with
  | zero => simp
  | succ n ih =>
    simp only [List.range_succ, List.map_append, List.sum_append, List.map_cons, List.map_nil,
      List.sum_cons, List.sum_nil, add_zero]
    rw [← ih]
    ring

theorem sum_sq_nonneg (g : Nat → ℝ) (l : List Nat) :
    0 ≤ (l.map fun k => g k ^ 2).sum := by
  induction l with
  | nil => simp
  | cons a t ih =>
    rw [List.map_cons, List.sum_cons]
    exact add_nonneg (sq_nonneg _) ih

/-- The accumulated value of entry `i` is the squared distance between the point
and column `i`, written as a sum of squares. -/
theorem acc_eq_sum_sq (C : TVVec ℝ) (x : List ℝ) (hx : x.length = C.GetRows)
    (i : Nat) (hi : i < C.GetCols) :
    GetDistV.acc (TLinAlg.Norm2 x) (TLinAlg.GetColNorm2V C) (TLinAlg.MultiplyTV C x) i
      = ((List.range C.GetRows).map fun k => (x.getD k 0 - C.At k i) ^ 2).sum := by
  have hi' : i < C.YDim := hi
  have h1 : (TLinAlg.GetColNorm2V C).getD i 0 = TLinAlg.ColNorm2 C i := by
    simp [TLinAlg.GetColNorm2V, List.getD_eq_getElem?_getD, hi']
  have h2 : (TLinAlg.MultiplyTV C x).getD i 0 = TLinAlg.ColDot C x i := by
    simp [TLinAlg.MultiplyTV, List.getD_eq_getElem?_getD, hi']
  have h3 : TLinAlg.Norm2 x
      = ((List.range C.GetRows).map fun k => x.getD k 0 * x.getD k 0).sum := by
    unfold TLinAlg.Norm2
    rw [sum_map_getD x fun a => a * a, hx]
  unfold GetDistV.acc
  rw [h1, h2, h3]
  exact sum_expand (fun k => C.At k i) (fun k => x.getD k 0) C.XDim

/-- C6: on the reals, for a centroid matrix `C` with `K` columns of dimension
`D` and a point `x` of dimension `D`, `GetDistV` returns normally (the
assertion holds at every entry) a vector of length `K` whose entry `i` is
`sqrt (max 0 (|c_i|² − 2·x·c_i + |x|²))`, which is the Euclidean distance
between `x` and column `i` and is not negative. -/
theorem GetDistV_euclidean (C : TVVec ℝ) (x : List ℝ) (hx : x.length = C.GetRows) :
    ∃ DistV : List ℝ, GetDistV Real.sqrt C x = .ok DistV ∧
      DistV.length = C.GetCols ∧
      ∀ i, i < C.GetCols →
        DistV.getD i 0
            = Real.sqrt (max 0 (TLinAlg.ColNorm2 C i - 2 * TLinAlg.ColDot C x i
                + TLinAlg.Norm2 x)) ∧
        DistV.getD i 0
            = Real.sqrt (((List.range C.GetRows).map fun k => (x.getD k 0 - C.At k i) ^ 2).sum) ∧
        0 ≤ DistV.getD i 0 ∧
        GetDistV.acc (TLinAlg.Norm2 x) (TLinAlg.GetColNorm2V C) (TLinAlg.MultiplyTV C x) i
          > -NumErr := by
  have hlen : (TLinAlg.GetColNorm2V C).length = C.GetCols := by
    simp [TLinAlg.GetColNorm2V, TVVec.GetCols]
  have hnn : ∀ i, i < C.GetCols → 0 ≤
      GetDistV.acc (TLinAlg.Norm2 x) (TLinAlg.GetColNorm2V C) (TLinAlg.MultiplyTV C x) i := by
    intro i hi
    rw [acc_eq_sum_sq C x hx i hi]
    exact sum_sq_nonneg _ _
  have hpos : (0 : ℝ) < NumErr := by unfold NumErr; norm_num
  have hentry : ∀ i ∈ List.range (TLinAlg.GetColNorm2V C).length,
      GetDistV.entry Real.sqrt
          (GetDistV.acc (TLinAlg.Norm2 x) (TLinAlg.GetColNorm2V C) (TLinAlg.MultiplyTV C x) i)
        = .ok (Real.sqrt
          (GetDistV.acc (TLinAlg.Norm2 x) (TLinAlg.GetColNorm2V C) (TLinAlg.MultiplyTV C x) i)) := by
    intro i hi
    rw [List.mem_range, hlen] at hi
    have h0 := hnn i hi
    unfold GetDistV.entry
    rw [if_pos (by linarith), if_neg (not_lt.mpr h0)]
  refine ⟨_, mapM_ok _ _ _ hentry, by simp [hlen], ?_⟩
  intro i hi
  have hget : ((List.range (TLinAlg.GetColNorm2V C).length).map fun i => Real.sqrt
      (GetDistV.acc (TLinAlg.Norm2 x) (TLinAlg.GetColNorm2V C) (TLinAlg.MultiplyTV C x) i)).getD i 0
      = Real.sqrt
        (GetDistV.acc (TLinAlg.Norm2 x) (TLinAlg.GetColNorm2V C) (TLinAlg.MultiplyTV C x) i) := by
    rw [hlen]
    simp [List.getD_eq_getElem?_getD, hi]
  have hi' : i < C.YDim := hi
  have hform : TLinAlg.ColNorm2 C i - 2 * TLinAlg.ColDot C x i + TLinAlg.Norm2 x
      = GetDistV.acc (TLinAlg.Norm2 x) (TLinAlg.GetColNorm2V C) (TLinAlg.MultiplyTV C x) i := by
    unfold GetDistV.acc
    simp only [TLinAlg.GetColNorm2V, TLinAlg.MultiplyTV, List.getD_eq_getElem?_getD]
    simp [hi']
    ring
  rw [hget]
  refine ⟨?_, ?_, Real.sqrt_nonneg _, ?_⟩
  · rw [hform, max_eq_right (hnn i hi)]
  · rw [acc_eq_sum_sq C x hx i hi]
  · have := hnn i hi
    linarith

/-- C7, as stated, fails at the tolerance itself: the value `-1e-8` is not below
`-1e-8`, yet the loop body fails on it. -/
theorem entry_at_tolerance :
    GetDistV.entry Real.sqrt (-(1 / 100000000 : ℝ))
        = .error "Distance lower than numerical error!" ∧
      ¬ (-(1 / 100000000 : ℝ) < -NumErr) := by
  constructor
  · unfold GetDistV.entry NumErr
    rw [if_neg (lt_irrefl _)]
  · unfold NumErr
    exact lt_irrefl _

/-- C7, amended: on an accumulated value `v` the loop body of `GetDistV` fails
with the numerical-instability error exactly when `v ≤ -1e-8`; for `v` in the
open interval `(-1e-8, 0)` it returns `0`; for `v ≥ 0` it returns `sqrt v`. -/
theorem entry_cases (v : ℝ) :
    (GetDistV.entry Real.sqrt v = .error "Distance lower than numerical error!"
        ↔ v ≤ -NumErr) ∧
      ((∃ e, GetDistV.entry Real.sqrt v = .error e) ↔ v ≤ -NumErr) ∧
      (-NumErr < v → v < 0 → GetDistV.entry Real.sqrt v = .ok 0) ∧
      (0 ≤ v → GetDistV.entry Real.sqrt v = .ok (Real.sqrt v)) := by
  have hpos : (0 : ℝ) < NumErr := by unfold NumErr; norm_num
  refine ⟨?_, ?_, ?_, ?_⟩
  · unfold GetDistV.entry
    by_cases h : v > -NumErr
    · rw [if_pos h]
      constructor
      · intro e; cases e
      · intro h'; exact absurd h (not_lt.mpr h')
    · rw [if_neg h]
      exact ⟨fun _ => not_lt.mp h, fun _ => rfl⟩
  · unfold GetDistV.entry
    by_cases h : v > -NumErr
    · rw [if_pos h]
      constructor
      · rintro ⟨e, he⟩; cases he
      · intro h'; exact absurd h (not_lt.mpr h')
    · rw [if_neg h]
      exact ⟨fun _ => not_lt.mp h, fun _ => ⟨_, rfl⟩⟩
  · intro h1 h2
    unfold GetDistV.entry
    rw [if_pos h1, if_pos h2, Real.sqrt_zero]
  · intro h
    unfold GetDistV.entry
    rw [if_pos (by linarith), if_neg (not_lt.mpr h)]

end TEuclDist

/-- C9 on the code: each of the six distance operations of `TCosDist` returns
normally and hands its output argument back as it came in; none fails. -/
theorem TCosDist_returns :
    TCosDist.GetDistV (TClustering.fourPoints : TVVec ℚ) [3] [] = .ok [] ∧
    TCosDist.GetDistVSp ([[(0, 1)]] : TSpVV ℚ) [(0, 3)] [] = .ok [] ∧
    (TCosDist.GetDistVV (TClustering.fourPoints : TVVec ℚ) TClustering.fourPoints
        TClustering.fourPoints).toOption.map (fun D => (D.XDim, D.YDim, D.At 0 1))
      = some (1, 4, 1) ∧
    (TCosDist.GetDistVVSp ([[(0, 1)]] : TSpVV ℚ) [[(0, 3)]]
        TClustering.fourPoints).toOption.map (fun D => (D.XDim, D.YDim, D.At 0 1))
      = some (1, 4, 1) ∧
    (TCosDist.GetDist2VV (TClustering.fourPoints : TVVec ℚ) TClustering.fourPoints
        TClustering.fourPoints).toOption.map (fun D => (D.XDim, D.YDim, D.At 0 1))
      = some (1, 4, 1) ∧
    (TCosDist.GetDist2VVSp ([[(0, 1)]] : TSpVV ℚ) [[(0, 3)]]
        TClustering.fourPoints).toOption.map (fun D => (D.XDim, D.YDim, D.At 0 1))
      = some (1, 4, 1) := by
  refine ⟨rfl, rfl, ?_, ?_, ?_, ?_⟩ <;>
    simp [TCosDist.GetDistVV, TCosDist.GetDistVVSp, TCosDist.GetDist2VV,
      TCosDist.GetDist2VVSp, Except.toOption, TClustering.fourPoints]

end TDistance

/-! ## The public `Apply` -/

namespace TClustering

namespace TAbsKMeans

/-- C8: the public `Apply` fails with the invalid-input error, whatever the
algorithm-specific `Apply` is, exactly when the feature matrix has zero rows;
then the result does not depend on the algorithm-specific `Apply` and the
engine state is the one it started from; otherwise the result is that of the
algorithm-specific `Apply` on the same matrix, `NInst` the number of columns,
`Dim` the number of rows, and the same `MaxIter` and `Notify`. -/
theorem Apply_validates {α σ ν : Type} (FtrVV : TVVec α) (MaxIter : Int) (Notify : ν)
    (self : σ) :
    ((∀ impl : ApplyImpl α σ ν, (Apply impl FtrVV MaxIter Notify self).1
        = .error "The input matrix doesn't have any features!") ↔ FtrVV.GetRows = 0) ∧
      (FtrVV.GetRows = 0 → ∀ impl : ApplyImpl α σ ν,
        Apply impl FtrVV MaxIter Notify self
          = (.error "The input matrix doesn't have any features!", self)) ∧
      (FtrVV.GetRows ≠ 0 → ∀ impl : ApplyImpl α σ ν,
        Apply impl FtrVV MaxIter Notify self
          = impl FtrVV (FtrVV.GetCols : Int) (FtrVV.GetRows : Int) MaxIter Notify self) := by
  have hzero : FtrVV.GetRows = 0 → ∀ impl : ApplyImpl α σ ν,
      Apply impl FtrVV MaxIter Notify self
        = (.error "The input matrix doesn't have any features!", self) := by
    intro h impl
    unfold Apply GetFtrVDim
    rw [h]
    rfl
  have hpos : FtrVV.GetRows ≠ 0 → ∀ impl : ApplyImpl α σ ν,
      Apply impl FtrVV MaxIter Notify self
        = impl FtrVV (FtrVV.GetCols : Int) (FtrVV.GetRows : Int) MaxIter Notify self := by
    intro h impl
    unfold Apply GetFtrVDim GetFtrVN GetFtrVV
    have : (FtrVV.GetRows : Int) > 0 := by omega
    simp only [this, if_true]
  refine ⟨⟨?_, fun h impl => by rw [hzero h impl]⟩, hzero, hpos⟩
  intro h
  by_contra hne
  have := h (fun _ _ _ _ _ st => (.ok (), st))
  rw [hpos hne] at this
  cases this

end TAbsKMeans

/-! ## The four-point scenario -/

section Scenario

variable {α : Type} [LinearOrderedField α]

theorem fourPoints_findMin1 :
    TAggClust.findMin (TDistance.TEuclDist.GetDist2VV (fourPoints : TVVec α) fourPoints)
      [1, 1, 1, 1] 4 = ⟨0, 1, some 1⟩ := by
  norm_num [TAggClust.findMin, TAggClust.scanOuter, TAggClust.scanRow, TAggClust.scanBody,
    TAggClust.ltMn, TDistance.TEuclDist.GetDist2VV, TDistance.TEuclDist.GetDist2VVN,
    TLinAlg.GetColNorm2V, TLinAlg.MultiplyT, TLinAlg.ColNorm2, fourPoints, List.range_succ,
    List.range'_succ]

theorem fourPoints_complete2 :
    TAggClust.findMin
      (TCompleteLink.JoinClusts
        (TDistance.TEuclDist.GetDist2VV (fourPoints : TVVec α) fourPoints) [1, 1, 1, 1] 0 1)
      [2, 0, 1, 1] 4 = ⟨2, 3, some 1⟩ := by
  norm_num [TAggClust.findMin, TAggClust.scanOuter, TAggClust.scanRow, TAggClust.scanBody,
    TAggClust.ltMn, TCompleteLink.JoinClusts, JoinWith, TDistance.TEuclDist.GetDist2VV,
    TDistance.TEuclDist.GetDist2VVN, TLinAlg.GetColNorm2V, TLinAlg.MultiplyT,
    TLinAlg.ColNorm2, fourPoints, List.range_succ, List.range'_succ]

theorem fourPoints_complete3 :
    TAggClust.findMin
      (TCompleteLink.JoinClusts
        (TCompleteLink.JoinClusts
          (TDistance.TEuclDist.GetDist2VV (fourPoints : TVVec α) fourPoints) [1, 1, 1, 1] 0 1)
        [2, 0, 1, 1] 2 3)
      [2, 0, 2, 0] 4 = ⟨0, 2, some 100⟩ := by
  norm_num [TAggClust.findMin, TAggClust.scanOuter, TAggClust.scanRow, TAggClust.scanBody,
    TAggClust.ltMn, TCompleteLink.JoinClusts, JoinWith, TDistance.TEuclDist.GetDist2VV,
    TDistance.TEuclDist.GetDist2VVN, TLinAlg.GetColNorm2V, TLinAlg.MultiplyT,
    TLinAlg.ColNorm2, fourPoints, List.range_succ, List.range'_succ]

theorem fourPoints_single2 :
    TAggClust.findMin
      (TSingleLink.JoinClusts
        (TDistance.TEuclDist.GetDist2VV (fourPoints : TVVec α) fourPoints) [1, 1, 1, 1] 0 1)
      [2, 0, 1, 1] 4 = ⟨2, 3, some 1⟩ := by
  norm_num [TAggClust.findMin, TAggClust.scanOuter, TAggClust.scanRow, TAggClust.scanBody,
    TAggClust.ltMn, TSingleLink.JoinClusts, JoinWith, TDistance.TEuclDist.GetDist2VV,
    TDistance.TEuclDist.GetDist2VVN, TLinAlg.GetColNorm2V, TLinAlg.MultiplyT,
    TLinAlg.ColNorm2, fourPoints, List.range_succ, List.range'_succ]

theorem fourPoints_single3 :
    TAggClust.findMin
      (TSingleLink.JoinClusts
        (TSingleLink.JoinClusts
          (TDistance.TEuclDist.GetDist2VV (fourPoints : TVVec α) fourPoints) [1, 1, 1, 1] 0 1)
        [2, 0, 1, 1] 2 3)
      [2, 0, 2, 0] 4 = ⟨0, 2, some 64⟩ := by
  norm_num [TAggClust.findMin, TAggClust.scanOuter, TAggClust.scanRow, TAggClust.scanBody,
    TAggClust.ltMn, TSingleLink.JoinClusts, JoinWith, TDistance.TEuclDist.GetDist2VV,
    TDistance.TEuclDist.GetDist2VVN, TLinAlg.GetColNorm2V, TLinAlg.MultiplyT,
    TLinAlg.ColNorm2, fourPoints, List.range_succ, List.range'_succ]

theorem mergeStep_of_findMin (J : TLink α) (sqrt : α → α) (N : Nat)
    (s : TAggClust.DendroSt α) (i j : Int) (v : α)
    (h : TAggClust.findMin s.ClustDistVV s.ItemCountV N = ⟨i, j, some v⟩) :
    TAggClust.mergeStep J sqrt N s = some
      { ClustDistVV := J s.ClustDistVV s.ItemCountV i.toNat j.toNat
        ItemCountV := (s.ItemCountV.set i.toNat
          (s.ItemCountV.getD i.toNat 0 + s.ItemCountV.getD j.toNat 0)).set j.toNat 0
        MergeV := s.MergeV ++ [(i, j, sqrt (if v < 0 then 0 else v))] } := by
  simp [TAggClust.mergeStep, h]

/-- The four points through `TSlAggClust`, for any square root: the last merge
is taken at the squared distance `100`. -/
theorem fourPoints_TSlAggClust (sqrt : α → α) :
    TSlAggClust.MakeDendro sqrt (fourPoints : TVVec α) []
      = some [(0, 1, sqrt 1), (2, 3, sqrt 1), (0, 2, sqrt 100)] := by
  have e1 := mergeStep_of_findMin TCompleteLink.JoinClusts sqrt 4
    (TAggClust.initSt TDistance.TEuclDist.GetDist2VV (fourPoints : TVVec α) []) 0 1 1
    fourPoints_findMin1
  have e2 := mergeStep_of_findMin TCompleteLink.JoinClusts sqrt 4
    ⟨TCompleteLink.JoinClusts
      (TDistance.TEuclDist.GetDist2VV (fourPoints : TVVec α) fourPoints) [1, 1, 1, 1] 0 1,
      [2, 0, 1, 1], [(0, 1, sqrt 1)]⟩ 2 3 1 fourPoints_complete2
  have e3 := mergeStep_of_findMin TCompleteLink.JoinClusts sqrt 4
    ⟨TCompleteLink.JoinClusts
      (TCompleteLink.JoinClusts
        (TDistance.TEuclDist.GetDist2VV (fourPoints : TVVec α) fourPoints) [1, 1, 1, 1] 0 1)
      [2, 0, 1, 1] 2 3, [2, 0, 2, 0], [(0, 1, sqrt 1), (2, 3, sqrt 1)]⟩ 0 2 100
    fourPoints_complete3
  rw [if_neg (by norm_num)] at e1 e2 e3
  show (TAggClust.mergeLoop TCompleteLink.JoinClusts sqrt 4 3 _).map _ = _
  simp only [TAggClust.mergeLoop]
  rw [e1]
  simp only [Option.some_bind]
  erw [e2]
  simp only [Option.some_bind]
  erw [e3]
  rfl

/-- The four points through the single-link instantiation
`TAggClust<TEuclDist, TSingleLink>`, for any square root: the last merge is
taken at the squared distance `64`. -/
theorem fourPoints_singleLink (sqrt : α → α) :
    TAggClust.MakeDendro TDistance.TEuclDist.GetDist2VV TSingleLink.JoinClusts sqrt
        (fourPoints : TVVec α) []
      = some [(0, 1, sqrt 1), (2, 3, sqrt 1), (0, 2, sqrt 64)] := by
  have e1 := mergeStep_of_findMin TSingleLink.JoinClusts sqrt 4
    (TAggClust.initSt TDistance.TEuclDist.GetDist2VV (fourPoints : TVVec α) []) 0 1 1
    fourPoints_findMin1
  have e2 := mergeStep_of_findMin TSingleLink.JoinClusts sqrt 4
    ⟨TSingleLink.JoinClusts
      (TDistance.TEuclDist.GetDist2VV (fourPoints : TVVec α) fourPoints) [1, 1, 1, 1] 0 1,
      [2, 0, 1, 1], [(0, 1, sqrt 1)]⟩ 2 3 1 fourPoints_single2
  have e3 := mergeStep_of_findMin TSingleLink.JoinClusts sqrt 4
    ⟨TSingleLink.JoinClusts
      (TSingleLink.JoinClusts
        (TDistance.TEuclDist.GetDist2VV (fourPoints : TVVec α) fourPoints) [1, 1, 1, 1] 0 1)
      [2, 0, 1, 1] 2 3, [2, 0, 2, 0], [(0, 1, sqrt 1), (2, 3, sqrt 1)]⟩ 0 2 64
    fourPoints_single3
  rw [if_neg (by norm_num)] at e1 e2 e3
  show (TAggClust.mergeLoop TSingleLink.JoinClusts sqrt 4 3 _).map _ = _
  simp only [TAggClust.mergeLoop]
  rw [e1]
  simp only [Option.some_bind]
  erw [e2]
  simp only [Option.some_bind]
  erw [e3]
  rfl

end Scenario

theorem sqrt_one_hundred : Real.sqrt 100 = 10 := by
  rw [show (100 : ℝ) = 10 ^ 2 by norm_num]
  exact Real.sqrt_sq (by norm_num)

theorem sqrt_sixty_four : Real.sqrt 64 = 8 := by
  rw [show (64 : ℝ) = 8 ^ 2 by norm_num]
  exact Real.sqrt_sq (by norm_num)

/-- The single-link instantiation on the four points gives the three merges
`(0,1,1)`, `(2,3,1)`, `(0,2,8)`. -/
theorem fourPoints_singleLink_real :
    TAggClust.MakeDendro TDistance.TEuclDist.GetDist2VV TSingleLink.JoinClusts Real.sqrt
        (fourPoints : TVVec ℝ) []
      = some [(0, 1, 1), (2, 3, 1), (0, 2, 8)] := by
  rw [fourPoints_singleLink, Real.sqrt_one, sqrt_sixty_four]

/-- C1 on the code: `TSlAggClust::MakeDendro` on the four points `0, 1, 9, 10`,
from an empty `MergeV`, writes `(0,1,1)`, `(2,3,1)` and then `(0,2,10)`: the
last merge is taken at distance `10`, not `8`. -/
theorem fourPoints_TSlAggClust_real :
    TSlAggClust.MakeDendro Real.sqrt (fourPoints : TVVec ℝ) []
        = some [(0, 1, 1), (2, 3, 1), (0, 2, 10)] ∧
      TSlAggClust.MakeDendro Real.sqrt (fourPoints : TVVec ℝ) []
        ≠ some [(0, 1, 1), (2, 3, 1), (0, 2, 8)] := by
  have h : TSlAggClust.MakeDendro Real.sqrt (fourPoints : TVVec ℝ) []
      = some [(0, 1, 1), (2, 3, 1), (0, 2, 10)] := by
    rw [fourPoints_TSlAggClust, Real.sqrt_one, sqrt_one_hundred]
  refine ⟨h, ?_⟩
  rw [h]
  intro e
  have e' := Option.some.inj e
  simp only [List.cons.injEq, Prod.mk.injEq, and_true, true_and] at e'
  norm_num at e'

end TClustering

/-! ## The theorems at the four points -/

namespace TClustering

open TAggClust

theorem MakeDendro_appends_fourPoints :
    1 ≤ (fourPoints : TVVec ℝ).GetCols ∧
    ((∃ L : List (TIntIntFltTr ℝ), L.length = (fourPoints : TVVec ℝ).GetCols - 1 ∧
      MakeDendro TDistance.TEuclDist.GetDist2VV TSingleLink.JoinClusts Real.sqrt
        fourPoints [(5, 6, 7)] = some ([(5, 6, 7)] ++ L) ∧
      ∀ k, k ≤ (fourPoints : TVVec ℝ).GetCols - 1 → ∃ s,
        mergeLoop TSingleLink.JoinClusts Real.sqrt (fourPoints : TVVec ℝ).GetCols k
          (initSt TDistance.TEuclDist.GetDist2VV fourPoints [(5, 6, 7)]) = some s ∧
        s.MergeV = [(5, 6, 7)] ++ L.take k) ∧
    ∃ L0, MakeDendro TDistance.TEuclDist.GetDist2VV TSingleLink.JoinClusts Real.sqrt
        (fourPoints : TVVec ℝ) [] = some L0 ∧
      L0.length = (fourPoints : TVVec ℝ).GetCols - 1) :=
  ⟨by decide, MakeDendro_appends TDistance.TEuclDist.GetDist2VV TSingleLink.JoinClusts
    Real.sqrt fourPoints [(5, 6, 7)] (by decide)⟩

theorem MakeDendro_nondecreasing_fourPoints :
    Monotone Real.sqrt ∧ 2 ≤ (fourPoints : TVVec ℝ).GetCols ∧
    ((TCompleteLink.JoinClusts : TLink ℝ) = TSingleLink.JoinClusts ∨
      (TCompleteLink.JoinClusts : TLink ℝ) = TCompleteLink.JoinClusts) ∧
    ∃ L : List (TIntIntFltTr ℝ), L.length = (fourPoints : TVVec ℝ).GetCols - 1 ∧
      MakeDendro TDistance.TEuclDist.GetDist2VV TCompleteLink.JoinClusts Real.sqrt
        fourPoints [] = some L ∧
      ∀ k, k + 1 < L.length → ∀ r r', L.get? k = some r → L.get? (k + 1) = some r' →
        r.2.2 ≤ r'.2.2 :=
  ⟨fun _ _ h => Real.sqrt_le_sqrt h, by decide, Or.inr rfl,
    MakeDendro_nondecreasing Real.sqrt (fun _ _ h => Real.sqrt_le_sqrt h) fourPoints
      (by decide) TCompleteLink.JoinClusts (Or.inr rfl)⟩

theorem MakeDendro_covers_fourPoints :
    2 ≤ (fourPoints : TVVec ℝ).GetCols ∧
    ∃ L : List (TIntIntFltTr ℝ), L.length = (fourPoints : TVVec ℝ).GetCols - 1 ∧
      MakeDendro TDistance.TEuclDist.GetDist2VV TAvgLink.JoinClusts Real.sqrt
        fourPoints [] = some ([] ++ L) ∧
      (∀ idx, idx < (fourPoints : TVVec ℝ).GetCols →
        ∃ r ∈ L, r.1 = (idx : Int) ∨ r.2.1 = (idx : Int)) ∧
      (L.map fun r => r.2.1).Nodup ∧
      ∀ idx, idx < (fourPoints : TVVec ℝ).GetCols →
        (∃ r ∈ L, r.2.1 = (idx : Int)) ∨ ∃ r, L.getLast? = some r ∧ r.1 = (idx : Int) :=
  ⟨by decide, MakeDendro_covers TDistance.TEuclDist.GetDist2VV TAvgLink.JoinClusts
    Real.sqrt fourPoints [] (by decide)⟩

theorem MakeDendro_records_fourPoints :
    2 ≤ (fourPoints : TVVec ℝ).GetCols ∧
    ∃ L : List (TIntIntFltTr ℝ), L.length = (fourPoints : TVVec ℝ).GetCols - 1 ∧
      MakeDendro TDistance.TEuclDist.GetDist2VV TCompleteLink.JoinClusts Real.sqrt
        fourPoints [] = some ([] ++ L) ∧
      (∀ k, k < (fourPoints : TVVec ℝ).GetCols - 1 → ∃ (s : DendroSt ℝ) (i j : Nat),
        mergeLoop TCompleteLink.JoinClusts Real.sqrt (fourPoints : TVVec ℝ).GetCols k
          (initSt TDistance.TEuclDist.GetDist2VV fourPoints []) = some s ∧
        s.MergeV = [] ++ L.take k ∧
        L.get? k = some ((i : Int), (j : Int), Real.sqrt (max 0 (s.ClustDistVV.At i j))) ∧
        i < j ∧ j < (fourPoints : TVVec ℝ).GetCols ∧
        0 < s.ItemCountV.getD i 0 ∧ 0 < s.ItemCountV.getD j 0 ∧
        (∀ a b, a < b → b < (fourPoints : TVVec ℝ).GetCols → 0 < s.ItemCountV.getD a 0 →
          0 < s.ItemCountV.getD b 0 →
          s.ClustDistVV.At i j ≤ s.ClustDistVV.At a b ∧
          ((a < i ∨ (a = i ∧ b < j)) → s.ClustDistVV.At i j < s.ClustDistVV.At a b))) ∧
      (∀ r ∈ L, r.1 ≠ -1 ∧ r.2.1 ≠ -1) ∧
      L.Pairwise fun r r' => r.2.1 ≠ r'.1 ∧ r.2.1 ≠ r'.2.1 :=
  ⟨by decide, MakeDendro_records TDistance.TEuclDist.GetDist2VV TCompleteLink.JoinClusts
    Real.sqrt fourPoints [] (by decide)⟩

theorem entry_cases_inside_tolerance :
    -TDistance.TEuclDist.NumErr < (-(1 / 200000000) : ℝ) ∧ (-(1 / 200000000) : ℝ) < 0 ∧
      TDistance.TEuclDist.GetDistV.entry Real.sqrt (-(1 / 200000000) : ℝ) = .ok 0 :=
  ⟨by norm_num [TDistance.TEuclDist.NumErr], by norm_num,
    (TDistance.TEuclDist.entry_cases (-(1 / 200000000))).2.2.1
      (by norm_num [TDistance.TEuclDist.NumErr]) (by norm_num)⟩

theorem Apply_validates_zero_rows :
    ({ XDim := 0, YDim := 4, At := fun _ _ => 0 } : TVVec ℚ).GetRows = 0 ∧
      TAbsKMeans.Apply (fun _ _ _ _ _ (st : Nat) => (.ok (), st + 1))
          ({ XDim := 0, YDim := 4, At := fun _ _ => 0 } : TVVec ℚ) 10000 () 7
        = (.error "The input matrix doesn't have any features!", 7) :=
  ⟨rfl, (TAbsKMeans.Apply_validates
    ({ XDim := 0, YDim := 4, At := fun _ _ => 0 } : TVVec ℚ) 10000 () 7).2.1 rfl _⟩

theorem GetDistV_euclidean_fourPoints :
    ([3] : List ℝ).length = (fourPoints : TVVec ℝ).GetRows ∧
    ∃ DistV : List ℝ,
      TDistance.TEuclDist.GetDistV Real.sqrt (fourPoints : TVVec ℝ) [3] = .ok DistV ∧
      DistV.length = (fourPoints : TVVec ℝ).GetCols ∧
      ∀ i, i < (fourPoints : TVVec ℝ).GetCols →
        DistV.getD i 0
            = Real.sqrt (max 0 (TLinAlg.ColNorm2 fourPoints i
                - 2 * TLinAlg.ColDot fourPoints [3] i + TLinAlg.Norm2 [3])) ∧
        DistV.getD i 0
            = Real.sqrt (((List.range (fourPoints : TVVec ℝ).GetRows).map
                fun k => (([3] : List ℝ).getD k 0 - (fourPoints : TVVec ℝ).At k i) ^ 2).sum) ∧
        0 ≤ DistV.getD i 0 ∧
        TDistance.TEuclDist.GetDistV.acc (TLinAlg.Norm2 [3])
            (TLinAlg.GetColNorm2V (fourPoints : TVVec ℝ)) (TLinAlg.MultiplyTV fourPoints [3]) i
          > -TDistance.TEuclDist.NumErr :=
  ⟨rfl, TDistance.TEuclDist.GetDistV_euclidean fourPoints [3] rfl⟩

end TClustering
